import Mathlib

/-!
# Verification of the parallel MapReduce k-means engine

Shallow embedding of the k-means color-quantization core found in
`src/parallel_kmeans.py`, `src/image_utils.py` and `main.py`.

Modelling conventions:
* Python `float` (IEEE float64) values are idealized as exact rationals `ℚ`.
  All arithmetic performed by the engine on the intended inputs (sums of
  8-bit pixel values, divisions by counts, absolute differences) is modelled
  exactly by `ℚ`.
* A numpy length-3 `float64` array is the structure `Vec3`.
* The per-chunk partial-result dictionary `{i: {'sum': .., 'count': ..}}`,
  whose keys are always exactly `0 .. K-1` inserted in increasing order
  (`parallel_kmeans.py` lines 17-18), is modelled as a `List (Vec3 × ℕ)` of
  length `K`, position `i` holding the entry for cluster `i`.
* `multiprocessing.Pool.map` applies the mapper to every chunk and returns
  the results in chunk order; it is modelled as `List.map`.
* File side effects (persisting centroids each round) are modelled by
  threading the list of saved centroid sets through the iteration loop.
-/

set_option maxRecDepth 4000

/-- A 3-component color vector (pixel or centroid): a numpy shape-(3,) array. -/
structure Vec3 where
  x : ℚ
  y : ℚ
  z : ℚ
deriving DecidableEq, Repr

def Vec3.zero : Vec3 := ⟨0, 0, 0⟩

def Vec3.add (a b : Vec3) : Vec3 := ⟨a.x + b.x, a.y + b.y, a.z + b.z⟩

/-- Component-wise division of a vector by a scalar count
(numpy `total_sum / total_count`). -/
def Vec3.sdiv (v : Vec3) (n : ℕ) : Vec3 := ⟨v.x / n, v.y / n, v.z / n⟩

/-- The inline distance computation `np.sum(np.abs(pixel - centroid))` of
`parallel_kmeans.py` line 34 and `image_utils.py` line 45. -/
def l1 (a b : Vec3) : ℚ := |a.x - b.x| + |a.y - b.y| + |a.z - b.z|

/-- Modelled from the spec: the module `src/math_utils.py` (imported by
`main.py`, `parallel_kmeans.py` and `image_utils.py` for `manhattan_distance`)
is not among the provided source files.  Spec section 4.1 defines the distance
as the sum of absolute per-component differences (Manhattan/L1). -/
def manhattan_distance (a b : Vec3) : ℚ := |a.x - b.x| + |a.y - b.y| + |a.z - b.z|

/-- The nearest-centroid scan of `map_task` (`parallel_kmeans.py` lines 26-37):
`min_dist = inf; nearest_idx = -1; for idx, centroid in enumerate(centroids):
if dist < min_dist: update`.  The running best is `none` while still at
`(inf, -1)`; any finite distance beats `inf`. -/
def scanNearest (p : Vec3) : List Vec3 → ℕ → Option (ℚ × ℕ) → Option (ℚ × ℕ)
  | [], _, best => best
  | c :: rest, idx, best =>
    match best with
    | none => scanNearest p rest (idx + 1) (some (l1 p c, idx))
    | some (m, j) =>
      if l1 p c < m then scanNearest p rest (idx + 1) (some (l1 p c, idx))
      else scanNearest p rest (idx + 1) (some (m, j))

/-- Index of the nearest centroid found by the scan; `none` models the
`nearest_idx == -1` (no centroid) case. -/
def nearestIdx (centroids : List Vec3) (p : Vec3) : Option ℕ :=
  Option.map (fun r => r.2) (scanNearest p centroids 0 none)

/-- One accumulation step of `map_task` (`parallel_kmeans.py` lines 40-42):
`partial_results[nearest_idx]['sum'] += pixel; ...['count'] += 1`. -/
def bump (acc : List (Vec3 × ℕ)) (i : ℕ) (p : Vec3) : List (Vec3 × ℕ) :=
  acc.set i ((acc.getD i (Vec3.zero, 0)).1.add p, (acc.getD i (Vec3.zero, 0)).2 + 1)

/-- The per-pixel body of `map_task`'s loop (`parallel_kmeans.py` lines 21-42):
find the nearest centroid and accumulate; the `nearest_idx == -1` branch
(`if nearest_idx != -1`) leaves the accumulator unchanged. -/
def mapStep (centroids : List Vec3) (acc : List (Vec3 × ℕ)) (pixel : Vec3) :
    List (Vec3 × ℕ) :=
  match nearestIdx centroids pixel with
  | some i => bump acc i pixel
  | none => acc

/-- `map_task` (`parallel_kmeans.py` lines 5-44): pre-initialize an entry
`(zeros, 0)` for every cluster index, then fold the per-pixel step over the
chunk. -/
def map_task (pixels_chunk centroids : List Vec3) : List (Vec3 × ℕ) :=
  pixels_chunk.foldl (mapStep centroids)
    (List.replicate centroids.length (Vec3.zero, 0))

/-- The Split phase of `run_parallel_map_reduce` (`parallel_kmeans.py` lines
53-59): `chunk_size = len(pixels) // num_processes`; chunk `i` is
`pixels[i*cs : (i+1)*cs]` except the last, which is `pixels[(n-1)*cs :]`. -/
def split (pixels : List Vec3) (num_processes : ℕ) : List (List Vec3) :=
  let cs := pixels.length / num_processes
  (List.range num_processes).map (fun i =>
    if i < num_processes - 1 then (pixels.drop (i * cs)).take cs
    else pixels.drop (i * cs))

/-- Merging of one cluster's entries across chunk partials. -/
def addAgg (a b : Vec3 × ℕ) : Vec3 × ℕ := (a.1.add b.1, a.2 + b.2)

/-- The per-cluster aggregation loop of the Reduce phase (`parallel_kmeans.py`
lines 69-76): sum `partial_result[i]['sum']` and `['count']` over all mapper
results; a result lacking key `i` contributes nothing (`if i in partial_result`). -/
def reduceTotals (map_results : List (List (Vec3 × ℕ))) (i : ℕ) : Vec3 × ℕ :=
  map_results.foldl (fun t part => addAgg t (part.getD i (Vec3.zero, 0))) (Vec3.zero, 0)

/-- The Reduce phase of `run_parallel_map_reduce` (`parallel_kmeans.py` lines
65-85): for each cluster index, the component-wise mean when the total count
is positive, otherwise the old centroid. -/
def reduce_phase (map_results : List (List (Vec3 × ℕ))) (centroids : List Vec3) :
    List Vec3 :=
  (List.range centroids.length).map (fun i =>
    let t := reduceTotals map_results i
    if 0 < t.2 then t.1.sdiv t.2 else centroids.getD i Vec3.zero)

/-- `run_parallel_map_reduce` (`parallel_kmeans.py` lines 46-85): split,
parallel map (`pool.map` returns results in chunk order), reduce. -/
def run_parallel_map_reduce (pixels centroids : List Vec3) (num_processes : ℕ) :
    List Vec3 :=
  reduce_phase ((split pixels num_processes).map (fun ch => map_task ch centroids))
    centroids

/-- The shift computation of `main.py` lines 57-61: `max_shift = 0.0` and for
each cluster index `if shift > max_shift: max_shift = shift`. -/
def maxShift (newC oldC : List Vec3) : ℚ :=
  (List.range oldC.length).foldl
    (fun m i =>
      let s := manhattan_distance (newC.getD i Vec3.zero) (oldC.getD i Vec3.zero)
      if s > m then s else m) 0

/-- The convergence loop of `main.py` lines 49-73, fuel = remaining iterations
(`MAX_ITER - iteration`).  Returns (final centroids, final value of the
`iteration` counter, whether the `max_shift < THRESHOLD` break fired, the list
of centroid sets persisted by `save_centroids`, in order). -/
def kmeansLoop (pixels : List Vec3) (num_processes : ℕ) (threshold : ℚ) :
    ℕ → ℕ → List Vec3 → List (List Vec3) → List Vec3 × ℕ × Bool × List (List Vec3)
  | 0, iteration, cur, saved => (cur, iteration, false, saved)
  | fuel + 1, iteration, cur, saved =>
    let nc := run_parallel_map_reduce pixels cur num_processes
    let ms := maxShift nc cur
    if ms < threshold then (nc, iteration, true, saved ++ [nc])
    else kmeansLoop pixels num_processes threshold fuel (iteration + 1) nc (saved ++ [nc])

/-- The whole `while iteration < MAX_ITER` loop of `main.py`, starting at
`iteration = 0` with nothing persisted yet. -/
def kmeansMain (pixels : List Vec3) (num_processes : ℕ) (threshold : ℚ)
    (max_iter : ℕ) (init : List Vec3) : List Vec3 × ℕ × Bool × List (List Vec3) :=
  kmeansLoop pixels num_processes threshold max_iter 0 init []

/-- `n` successive Map+Reduce rounds. -/
def applyN (pixels : List Vec3) (num_processes : ℕ) : ℕ → List Vec3 → List Vec3
  | 0, cur => cur
  | n + 1, cur => applyN pixels num_processes n (run_parallel_map_reduce pixels cur num_processes)

/-- The nearest-centroid scan of `reconstruct_image_from_array`
(`image_utils.py` lines 40-48), which tracks the best centroid value
(`nearest_centroid = centroid`) instead of its index. -/
def scanNearestC (p : Vec3) : List Vec3 → Option (ℚ × Vec3) → Option (ℚ × Vec3)
  | [], best => best
  | c :: rest, best =>
    match best with
    | none => scanNearestC p rest (some (l1 p c, c))
    | some (m, b) =>
      if l1 p c < m then scanNearestC p rest (some (l1 p c, c))
      else scanNearestC p rest (some (m, b))

/-- Truncation toward zero of a rational, as the C-style cast performed by
numpy when a `float64` value is stored into a `uint8` array
(`new_pixels[i] = nearest_centroid` with `new_pixels = np.zeros_like(pixels)`
of dtype uint8). `Int.tdiv` truncates toward zero. -/
def truncQ (q : ℚ) : ℤ := Int.tdiv q.num (q.den : ℤ)

/-- Store into a uint8 cell: truncate toward zero, reduce mod 256. -/
def toU8 (q : ℚ) : ℕ := (truncQ q % (256 : ℤ)).toNat

def truncVec (v : Vec3) : ℕ × ℕ × ℕ := (toU8 v.x, toU8 v.y, toU8 v.z)

/-- `reconstruct_image_from_array` (`image_utils.py` lines 28-56): for every
pixel, scan for the nearest centroid and store its value into the uint8 output
buffer.  The `none` branch is unreachable for a non-empty centroid list (the
source would fail there, assigning `None` into a numpy array). -/
def reconstruct_image_from_array (pixels centroids : List Vec3) : List (ℕ × ℕ × ℕ) :=
  pixels.map (fun p =>
    match scanNearestC p centroids none with
    | some (_, b) => truncVec b
    | none => (0, 0, 0))

/-- The spec's reading of the Reconstructor (spec section 4.7: "replace the
pixel's value with that centroid's rounded value"), stated for refinement
comparison with `reconstruct_image_from_array`: round to nearest instead of
truncating. -/
def reconstructRounded (pixels centroids : List Vec3) : List (ℕ × ℕ × ℕ) :=
  pixels.map (fun p =>
    match scanNearestC p centroids none with
    | some (_, b) => (((round b.x : ℤ) % 256).toNat, ((round b.y : ℤ) % 256).toNat,
        ((round b.z : ℤ) % 256).toNat)
    | none => (0, 0, 0))

/-- `initialize_centroids` of `main.py` lines 23-31.  The library call
`np.random.choice(len(pixels), k, replace=False)` is abstracted by the
parameter `draw` (per its contract it returns `k` distinct indices below
`len(pixels)` and raises `ValueError` when `k > len(pixels)`, modelled by
`none`); `.astype(float)` is the identity in the exact-rational model. -/
def initCentroids (pixels : List Vec3) (k : ℕ) (draw : List ℕ) : Option (List Vec3) :=
  if pixels.length < k then none
  else some (draw.map (fun i => pixels.getD i Vec3.zero))

/-! ## Closed form of `map_task`: per-cluster filtered sums and counts -/

/-- The pixels of a chunk that the assignment rule sends to cluster `i`. -/
def clusterFilter (centroids chunk : List Vec3) (i : ℕ) : List Vec3 :=
  chunk.filter (fun p => nearestIdx centroids p == some i)

/-- Component-wise sum of a list of vectors. -/
def vecSum : List Vec3 → Vec3
  | [] => Vec3.zero
  | v :: rest => v.add (vecSum rest)

/-! ## Aggregation algebra and chunk-invariance of the Map+Reduce round -/

/-- The ideal aggregate of a chunk for one cluster. -/
def chunkAgg (centroids ch : List Vec3) (i : ℕ) : Vec3 × ℕ :=
  (vecSum (clusterFilter centroids ch i), (clusterFilter centroids ch i).length)

/-! ## Centroid Store (`image_utils.py` lines 58-71)

The file is modelled as a `List Char`.  Python's `str`/`float` conversions
(`','.join(map(str, c))` and `map(float, ...)`) are external library
functions, abstracted by parameters `fmt`/`parse`; the claims' hypotheses
state their contract at the values actually serialized (Python's `str` of a
float round-trips exactly and produces no separator or whitespace
characters). -/

/-- The characters removed by Python's `str.strip()`. -/
def isSpaceChar (c : Char) : Bool :=
  c == ' ' || c == '\t' || c == '\n' || c == '\r' || c == '\x0b' || c == '\x0c'

/-- Python `line.strip()`. -/
def strip (l : List Char) : List Char :=
  ((l.dropWhile isSpaceChar).reverse.dropWhile isSpaceChar).reverse

/-- Python `s.split(sep)` for a one-character separator. -/
def splitOnChar (sep : Char) : List Char → List (List Char)
  | [] => [[]]
  | c :: rest =>
    match splitOnChar sep rest with
    | [] => [[c]]
    | g :: gs => if c == sep then [] :: g :: gs else (c :: g) :: gs

/-- Python `sep.join(parts)` for a one-character separator. -/
def joinWith (sep : Char) : List (List Char) → List Char
  | [] => []
  | [g] => g
  | g :: gs => g ++ sep :: joinWith sep gs

/-- `save_centroids` (`image_utils.py` lines 58-61): one line per centroid,
components comma-joined via `str`, each line terminated by a newline. -/
def save_centroids (fmt : ℚ → List Char) (centroids : List (List ℚ)) : List Char :=
  ((centroids.map (fun c => joinWith ',' (c.map fmt) ++ ['\n']))).flatten

/-- `load_centroids` (`image_utils.py` lines 63-71): iterate over the lines,
skip blank (after `strip`) lines, split each kept line on commas and parse the
fields via `float`.  Python line iteration yields lines with their newline
terminator and no final empty line; splitting on the newline yields the same
lines (terminators stripped by `strip`) plus one final empty line, which the
blank-line filter discards. -/
def load_centroids (parse : List Char → ℚ) (file : List Char) : List (List ℚ) :=
  (splitOnChar '\n' file).filterMap (fun line =>
    let s := strip line
    if s.isEmpty then none
    else some ((splitOnChar ',' s).map parse))

/-- The row of components a `Vec3` centroid contributes to the file. -/
def vecRow (v : Vec3) : List ℚ := [v.x, v.y, v.z]

/-- Contract of the abstracted `str` conversion at one value: nonempty, no
whitespace (including newline), no comma. -/
def fmtOk (s : List Char) : Prop :=
  s ≠ [] ∧ ∀ c ∈ s, isSpaceChar c = false ∧ c ≠ ','

def C1_prop (chunk centroids : List Vec3) : Prop :=
  (map_task chunk centroids).length = centroids.length ∧
  (∀ p : Vec3, ∃ j, nearestIdx centroids p = some j ∧ j < centroids.length ∧
    (∀ i, i < centroids.length →
      l1 p (centroids.getD j Vec3.zero) ≤ l1 p (centroids.getD i Vec3.zero)) ∧
    (∀ i, i < j → l1 p (centroids.getD j Vec3.zero) < l1 p (centroids.getD i Vec3.zero))) ∧
  (∀ i, i < centroids.length →
    (map_task chunk centroids).getD i (Vec3.zero, 0) =
      (vecSum (clusterFilter centroids chunk i), (clusterFilter centroids chunk i).length))

def C2_prop (parts : List (List (Vec3 × ℕ))) (prev : List Vec3) : Prop :=
  (reduce_phase parts prev).length = prev.length ∧
  ∀ i, i < prev.length →
    (0 < (parts.map (fun part => (part.getD i (Vec3.zero, 0)).2)).sum →
      (reduce_phase parts prev).getD i Vec3.zero =
        (vecSum (parts.map (fun part => (part.getD i (Vec3.zero, 0)).1))).sdiv
          ((parts.map (fun part => (part.getD i (Vec3.zero, 0)).2)).sum)) ∧
    ((parts.map (fun part => (part.getD i (Vec3.zero, 0)).2)).sum = 0 →
      (reduce_phase parts prev).getD i Vec3.zero = prev.getD i Vec3.zero)

def C3_prop (pixels : List Vec3) (wc : ℕ) (threshold : ℚ) (maxIter : ℕ)
    (init : List Vec3) : Prop :=
  (∀ newC oldC : List Vec3,
    (∀ i, i < oldC.length →
      manhattan_distance (newC.getD i Vec3.zero) (oldC.getD i Vec3.zero) ≤
        maxShift newC oldC) ∧
    (maxShift newC oldC = 0 ∨ ∃ i, i < oldC.length ∧
      maxShift newC oldC =
        manhattan_distance (newC.getD i Vec3.zero) (oldC.getD i Vec3.zero))) ∧
  ∃ n : ℕ, n ≤ maxIter ∧ ∃ conv : Bool,
    kmeansMain pixels wc threshold maxIter init =
      (applyN pixels wc n init,
       (if conv then n - 1 else n),
       conv,
       (List.range n).map (fun t => applyN pixels wc (t + 1) init)) ∧
    (∀ t, t + 1 < n →
      ¬ maxShift (applyN pixels wc (t + 1) init) (applyN pixels wc t init) < threshold) ∧
    (conv = true → 1 ≤ n ∧
      maxShift (applyN pixels wc n init) (applyN pixels wc (n - 1) init) < threshold) ∧
    (conv = false → n = maxIter ∧ ∀ t, t < n →
      ¬ maxShift (applyN pixels wc (t + 1) init) (applyN pixels wc t init) < threshold)

def C4_prop (pixels : List Vec3) (wc : ℕ) : Prop :=
  (split pixels wc).length = wc ∧
  (split pixels wc).flatten = pixels ∧
  (∀ i, i < wc - 1 →
    ((split pixels wc).getD i []).length = pixels.length / wc) ∧
  ((split pixels wc).getD (wc - 1) []).length =
    pixels.length - (wc - 1) * (pixels.length / wc)

def C5_prop (pixels centroids : List Vec3) : Prop :=
  (reconstruct_image_from_array pixels centroids).length = pixels.length ∧
  ∀ i, i < pixels.length →
    ∃ j, nearestIdx centroids (pixels.getD i Vec3.zero) = some j ∧
      (reconstruct_image_from_array pixels centroids).getD i (0, 0, 0) =
        truncVec (centroids.getD j Vec3.zero)

/-! ## The end-to-end scenario (C7) -/

def scenarioPixels : List Vec3 := [⟨0, 0, 0⟩, ⟨0, 0, 1⟩, ⟨10, 10, 10⟩, ⟨10, 10, 11⟩]

def scenarioInit : List Vec3 := [⟨0, 0, 0⟩, ⟨10, 10, 10⟩]

def scenarioTarget : List Vec3 := [⟨0, 0, 1/2⟩, ⟨10, 10, 21/2⟩]

def C7_prop (wc : ℕ) : Prop :=
  run_parallel_map_reduce scenarioPixels scenarioInit wc = scenarioTarget ∧
  run_parallel_map_reduce scenarioPixels scenarioTarget wc = scenarioTarget ∧
  maxShift scenarioTarget scenarioTarget = 0 ∧
  (∀ n, 1 ≤ n → applyN scenarioPixels wc n scenarioInit = scenarioTarget) ∧
  kmeansMain scenarioPixels wc (1/2) 10 scenarioInit =
    (scenarioTarget, 1, true, [scenarioTarget, scenarioTarget])

def C8_prop (pixels : List Vec3) (k : ℕ) (draw : List ℕ) : Prop :=
  (pixels.length < k → initCentroids pixels k draw = none) ∧
  (k ≤ pixels.length → draw.length = k → draw.Nodup →
    (∀ i ∈ draw, i < pixels.length) →
    ∃ cs, initCentroids pixels k draw = some cs ∧ cs.length = k ∧
      ∃ idxs : List ℕ, idxs.Nodup ∧ idxs.length = k ∧
        ∀ j, j < k → idxs.getD j 0 < pixels.length ∧
          cs.getD j Vec3.zero = pixels.getD (idxs.getD j 0) Vec3.zero)

def C9_prop (fmt : ℚ → List Char) (parse : List Char → ℚ) (X : List Vec3) : Prop :=
  ∃ Y : List (List ℚ),
    load_centroids parse (save_centroids fmt (X.map vecRow)) = Y ∧
    Y.length = X.length ∧
    ∀ i, i < X.length → ∃ a b c : ℚ, Y.getD i [] = [a, b, c] ∧
      |a - (X.getD i Vec3.zero).x| ≤ 1/1000000 ∧
      |b - (X.getD i Vec3.zero).y| ≤ 1/1000000 ∧
      |c - (X.getD i Vec3.zero).z| ≤ 1/1000000

/-- A concrete format/parse pair for the C9 witness. -/
def witFmt (q : ℚ) : List Char := if q = 1 then ['1'] else if q = 2 then ['2'] else ['3']

def witParse (s : List Char) : ℚ := if s = ['1'] then 1 else if s = ['2'] then 2 else 3

def C10_prop (chunk centroids : List Vec3) : Prop :=
  ((List.range centroids.length).map
    (fun i => ((map_task chunk centroids).getD i (Vec3.zero, 0)).2)).sum = chunk.length ∧
  (∀ i, i < centroids.length →
    ((map_task chunk centroids).getD i (Vec3.zero, 0)).1 =
      vecSum (clusterFilter centroids chunk i)) ∧
  (∀ p : Vec3, nearestIdx centroids p ≠ none)

/-! ## Theorems -/
/-! ## Basic algebra of `Vec3` and list helpers -/

theorem Vec3.add_zero (v : Vec3) : v.add Vec3.zero = v := by
  cases v; simp [Vec3.add, Vec3.zero]

theorem Vec3.zero_add (v : Vec3) : Vec3.zero.add v = v := by
  cases v; simp [Vec3.add, Vec3.zero]

theorem Vec3.add_assoc (a b c : Vec3) : (a.add b).add c = a.add (b.add c) := by
  cases a; cases b; cases c; simp [Vec3.add]; refine ⟨?_, ?_, ?_⟩ <;> ring

theorem getD_cons_zero' {α : Type} (a : α) (l : List α) (d : α) :
    (a :: l).getD 0 d = a := rfl

theorem getD_cons_succ' {α : Type} (a : α) (l : List α) (i : ℕ) (d : α) :
    (a :: l).getD (i + 1) d = l.getD i d := rfl

theorem getD_set_self {α : Type} (l : List α) (i : ℕ) (v d : α) (h : i < l.length) :
    (l.set i v).getD i d = v := by
  simp [List.getD_eq_getElem?_getD, List.getElem?_set_self', h]

theorem getD_set_ne {α : Type} (l : List α) (i j : ℕ) (v d : α) (h : i ≠ j) :
    (l.set i v).getD j d = l.getD j d := by
  simp [List.getD_eq_getElem?_getD, List.getElem?_set_ne h]

theorem getD_replicate' {α : Type} (n i : ℕ) (a d : α) (h : i < n) :
    (List.replicate n a).getD i d = a := by
  simp [List.getD_eq_getElem?_getD, List.getElem?_replicate, h]

theorem getD_range_map {α : Type} (f : ℕ → α) (n i : ℕ) (d : α) (h : i < n) :
    ((List.range n).map f).getD i d = f i := by
  simp [List.getD_eq_getElem?_getD, List.getElem?_map, List.getElem?_range, h]

/-! ## The nearest-centroid scan: first index attaining the minimum distance -/

/-- Invariant of the linear scan: starting from a current best `(m, j)` at
position `idx`, the scan either keeps the current best, or moves to the first
strictly better element of the remaining list. -/
theorem scanNearest_go (p : Vec3) :
    ∀ (cs : List Vec3) (idx : ℕ) (m : ℚ) (j : ℕ),
    ∃ m' j', scanNearest p cs idx (some (m, j)) = some (m', j') ∧
      m' ≤ m ∧
      (∀ k, k < cs.length → m' ≤ l1 p (cs.getD k Vec3.zero)) ∧
      ((m' = m ∧ j' = j) ∨
        ∃ k, k < cs.length ∧ j' = idx + k ∧ m' = l1 p (cs.getD k Vec3.zero) ∧ m' < m ∧
          ∀ k', k' < k → m' < l1 p (cs.getD k' Vec3.zero)) := by
  intro cs
  induction cs with
  | nil =>
    intro idx m j
    exact ⟨m, j, rfl, le_refl m, by intro k hk; simp at hk, Or.inl ⟨rfl, rfl⟩⟩
  | cons c rest ih =>
    intro idx m j
    by_cases hlt : l1 p c < m
    · obtain ⟨m', j', hres, hle, hall, hcase⟩ := ih (idx + 1) (l1 p c) idx
      refine ⟨m', j', ?_, le_trans hle (le_of_lt hlt), ?_, ?_⟩
      · simpa [scanNearest, hlt] using hres
      · intro k hk
        cases k with
        | zero => simpa [getD_cons_zero'] using hle
        | succ k => simpa [getD_cons_succ'] using hall k (by simpa using hk)
      · rcases hcase with ⟨hm, hj⟩ | ⟨k, hk, hj, hm, hlt', hprev⟩
        · refine Or.inr ⟨0, by simp, by omega, ?_, ?_, ?_⟩
          · simpa [getD_cons_zero'] using hm
          · rw [hm]; exact hlt
          · intro k' hk'; omega
        · refine Or.inr ⟨k + 1, by simpa using hk, by omega, ?_, lt_trans hlt' hlt, ?_⟩
          · simpa [getD_cons_succ'] using hm
          · intro k' hk'
            cases k' with
            | zero => simpa [getD_cons_zero'] using hlt'
            | succ k' => simpa [getD_cons_succ'] using hprev k' (by omega)
    · obtain ⟨m', j', hres, hle, hall, hcase⟩ := ih (idx + 1) m j
      refine ⟨m', j', ?_, hle, ?_, ?_⟩
      · simpa [scanNearest, hlt] using hres
      · intro k hk
        cases k with
        | zero =>
          have : m ≤ l1 p c := not_lt.mp hlt
          simpa [getD_cons_zero'] using le_trans hle this
        | succ k => simpa [getD_cons_succ'] using hall k (by simpa using hk)
      · rcases hcase with ⟨hm, hj⟩ | ⟨k, hk, hj, hm, hlt', hprev⟩
        · exact Or.inl ⟨hm, hj⟩
        · refine Or.inr ⟨k + 1, by simpa using hk, by omega, ?_, hlt', ?_⟩
          · simpa [getD_cons_succ'] using hm
          · intro k' hk'
            cases k' with
            | zero =>
              have : m ≤ l1 p c := not_lt.mp hlt
              simpa [getD_cons_zero'] using lt_of_lt_of_le hlt' this
            | succ k' => simpa [getD_cons_succ'] using hprev k' (by omega)

/-- The Mapper's assignment rule: on a non-empty centroid list, the scan
returns the index of the first centroid attaining the minimum L1 distance
(strict-less-than updates break ties toward the lowest index). -/
theorem nearestIdx_char (centroids : List Vec3) (p : Vec3) (h : centroids ≠ []) :
    ∃ j, nearestIdx centroids p = some j ∧ j < centroids.length ∧
      (∀ i, i < centroids.length →
        l1 p (centroids.getD j Vec3.zero) ≤ l1 p (centroids.getD i Vec3.zero)) ∧
      (∀ i, i < j → l1 p (centroids.getD j Vec3.zero) < l1 p (centroids.getD i Vec3.zero)) := by
  obtain ⟨c, rest, rfl⟩ : ∃ c rest, centroids = c :: rest := by
    cases centroids with
    | nil => exact absurd rfl h
    | cons c rest => exact ⟨c, rest, rfl⟩
  obtain ⟨m', j', hres, hle, hall, hcase⟩ := scanNearest_go p rest 1 (l1 p c) 0
  have hscan : scanNearest p (c :: rest) 0 none = some (m', j') := by
    simpa [scanNearest] using hres
  refine ⟨j', by simp [nearestIdx, hscan], ?_, ?_, ?_⟩
  · rcases hcase with ⟨_, hj⟩ | ⟨k, hk, hj, _, _, _⟩
    · simp [hj]
    · simp only [List.length_cons]; omega
  · rcases hcase with ⟨hm, hj⟩ | ⟨k, hk, hj, hm, hlt', hprev⟩
    · intro i hi
      subst hj
      cases i with
      | zero => simp
      | succ i =>
        rw [getD_cons_zero', getD_cons_succ', ← hm]
        exact hall i (by simpa using hi)
    · intro i hi
      have hji : (c :: rest).getD j' Vec3.zero = rest.getD k Vec3.zero := by
        rw [hj, show 1 + k = k + 1 by omega, getD_cons_succ']
      rw [hji, ← hm]
      cases i with
      | zero => exact le_of_lt (by simpa [getD_cons_zero'] using hlt')
      | succ i => simpa [getD_cons_succ'] using hall i (by simpa using hi)
  · rcases hcase with ⟨hm, hj⟩ | ⟨k, hk, hj, hm, hlt', hprev⟩
    · intro i hi; omega
    · intro i hi
      have hji : (c :: rest).getD j' Vec3.zero = rest.getD k Vec3.zero := by
        rw [hj, show 1 + k = k + 1 by omega, getD_cons_succ']
      rw [hji, ← hm]
      cases i with
      | zero => simpa [getD_cons_zero'] using hlt'
      | succ i =>
        rw [getD_cons_succ']
        exact hprev i (by omega)

/-- A non-empty centroid list always yields an assignment (the
`nearest_idx == -1` branch of `map_task` is unreachable for `K ≥ 1`). -/
theorem nearestIdx_none_iff (centroids : List Vec3) (p : Vec3) :
    nearestIdx centroids p = none ↔ centroids = [] := by
  constructor
  · intro hnone
    by_contra hne
    obtain ⟨j, hj, -⟩ := nearestIdx_char centroids p hne
    rw [hnone] at hj
    exact Option.noConfusion hj
  · intro h; subst h; rfl

/-- The assigned index is a valid cluster index. -/
theorem nearestIdx_lt (centroids : List Vec3) (p : Vec3) (j : ℕ)
    (h : nearestIdx centroids p = some j) : j < centroids.length := by
  have hne : centroids ≠ [] := by
    intro hnil; subst hnil; exact Option.noConfusion h
  obtain ⟨j', hj', hlt, -, -⟩ := nearestIdx_char centroids p hne
  rw [h] at hj'
  cases hj'
  exact hlt

theorem vecSum_append (a b : List Vec3) :
    vecSum (a ++ b) = (vecSum a).add (vecSum b) := by
  induction a with
  | nil => simp [vecSum, Vec3.zero_add]
  | cons v rest ih => simp [vecSum, ih, Vec3.add_assoc]

theorem mapStep_length (centroids : List Vec3) (acc : List (Vec3 × ℕ)) (p : Vec3) :
    (mapStep centroids acc p).length = acc.length := by
  unfold mapStep
  cases nearestIdx centroids p with
  | none => rfl
  | some i => simp [bump]

theorem foldl_mapStep_length (centroids : List Vec3) :
    ∀ (ch : List Vec3) (acc : List (Vec3 × ℕ)),
    (ch.foldl (mapStep centroids) acc).length = acc.length := by
  intro ch
  induction ch with
  | nil => intro acc; rfl
  | cons p rest ih =>
    intro acc
    rw [List.foldl_cons, ih, mapStep_length]

/-- The Mapper's output has an entry for every cluster index in `[0, K)`. -/
theorem map_task_length (ch centroids : List Vec3) :
    (map_task ch centroids).length = centroids.length := by
  rw [map_task, foldl_mapStep_length, List.length_replicate]

theorem foldl_mapStep_getD (centroids : List Vec3) :
    ∀ (ch : List Vec3) (acc : List (Vec3 × ℕ)), acc.length = centroids.length →
    ∀ i, i < centroids.length →
    (ch.foldl (mapStep centroids) acc).getD i (Vec3.zero, 0) =
      addAgg (acc.getD i (Vec3.zero, 0))
        (vecSum (clusterFilter centroids ch i), (clusterFilter centroids ch i).length) := by
  intro ch
  induction ch with
  | nil =>
    intro acc hlen i hi
    simp [clusterFilter, vecSum, addAgg, Vec3.add_zero]
  | cons p rest ih =>
    intro acc hlen i hi
    rw [List.foldl_cons]
    rw [ih (mapStep centroids acc p) (by rw [mapStep_length]; exact hlen) i hi]
    rcases hcase : nearestIdx centroids p with - | n
    · have hfil : clusterFilter centroids (p :: rest) i = clusterFilter centroids rest i := by
        simp [clusterFilter, List.filter_cons, hcase]
      rw [hfil]
      simp [mapStep, hcase]
    · have hn : n < centroids.length := nearestIdx_lt centroids p n hcase
      by_cases hin : n = i
      · subst hin
        have hfil : clusterFilter centroids (p :: rest) n =
            p :: clusterFilter centroids rest n := by
          simp [clusterFilter, List.filter_cons, hcase]
        have hget : (mapStep centroids acc p).getD n (Vec3.zero, 0) =
            ((acc.getD n (Vec3.zero, 0)).1.add p, (acc.getD n (Vec3.zero, 0)).2 + 1) := by
          simp only [mapStep, hcase, bump]
          apply getD_set_self
          rw [hlen]; exact hn
        rw [hfil, hget]
        simp only [vecSum, addAgg, List.length_cons, Prod.mk.injEq]
        exact ⟨by rw [Vec3.add_assoc], by omega⟩
      · have hfil : clusterFilter centroids (p :: rest) i = clusterFilter centroids rest i := by
          simp [clusterFilter, List.filter_cons, hcase, hin]
        have hget : (mapStep centroids acc p).getD i (Vec3.zero, 0) =
            acc.getD i (Vec3.zero, 0) := by
          simp only [mapStep, hcase, bump]
          exact getD_set_ne acc n i _ _ hin
        rw [hfil, hget]

/-- Entry `i` of the Mapper's output is exactly the component-wise sum and the
count of the pixels of the chunk assigned to cluster `i`. -/
theorem map_task_getD (ch centroids : List Vec3) (i : ℕ) (hi : i < centroids.length) :
    (map_task ch centroids).getD i (Vec3.zero, 0) =
      (vecSum (clusterFilter centroids ch i), (clusterFilter centroids ch i).length) := by
  rw [map_task, foldl_mapStep_getD centroids ch _ (List.length_replicate _ _) i hi,
    getD_replicate' _ _ _ _ hi]
  simp [addAgg, Vec3.zero_add]

/-! ## The Split phase: contiguous chunks that concatenate back to the buffer -/

theorem split_eq (pixels : List Vec3) (w : ℕ) :
    split pixels (w + 1) =
      ((List.range w).map (fun i => (pixels.drop (i * (pixels.length / (w + 1)))).take
        (pixels.length / (w + 1)))) ++ [pixels.drop (w * (pixels.length / (w + 1)))] := by
  unfold split
  rw [List.range_succ, List.map_append]
  congr 1
  · apply List.map_congr_left
    intro i hi
    rw [if_pos]
    have := List.mem_range.mp hi
    omega
  · simp

theorem join_take_chunks (pixels : List Vec3) (cs : ℕ) :
    ∀ m : ℕ,
    ((List.range m).map (fun i => (pixels.drop (i * cs)).take cs)).flatten =
      pixels.take (m * cs) := by
  intro m
  induction m with
  | zero => simp
  | succ m ih =>
    rw [List.range_succ, List.map_append, List.flatten_append, ih]
    simp only [List.map_cons, List.map_nil, List.flatten_cons, List.flatten_nil,
      List.append_nil]
    rw [Nat.succ_mul, List.take_add]

/-- Concatenating the chunks in order reproduces the original buffer. -/
theorem split_flatten (pixels : List Vec3) (w : ℕ) :
    (split pixels (w + 1)).flatten = pixels := by
  rw [split_eq, List.flatten_append, join_take_chunks]
  simp only [List.flatten_cons, List.flatten_nil, List.append_nil]
  exact List.take_append_drop _ pixels

theorem split_length (pixels : List Vec3) (n : ℕ) : (split pixels n).length = n := by
  simp [split]

theorem split_getD_early (pixels : List Vec3) (wc i : ℕ) (hi : i < wc - 1) :
    (split pixels wc).getD i [] =
      (pixels.drop (i * (pixels.length / wc))).take (pixels.length / wc) := by
  unfold split
  rw [getD_range_map _ _ _ _ (by omega), if_pos hi]

theorem split_getD_last (pixels : List Vec3) (wc : ℕ) (hwc : 1 ≤ wc) :
    (split pixels wc).getD (wc - 1) [] =
      pixels.drop ((wc - 1) * (pixels.length / wc)) := by
  unfold split
  rw [getD_range_map _ _ _ _ (by omega), if_neg (by omega)]

theorem addAgg_zero_left (a : Vec3 × ℕ) : addAgg (Vec3.zero, 0) a = a := by
  cases a; simp [addAgg, Vec3.zero_add]

theorem addAgg_zero_right (a : Vec3 × ℕ) : addAgg a (Vec3.zero, 0) = a := by
  cases a; simp [addAgg, Vec3.add_zero]

theorem addAgg_assoc (a b c : Vec3 × ℕ) :
    addAgg (addAgg a b) c = addAgg a (addAgg b c) := by
  simp [addAgg, Vec3.add_assoc, Nat.add_assoc]

theorem chunkAgg_append (centroids a b : List Vec3) (i : ℕ) :
    chunkAgg centroids (a ++ b) i =
      addAgg (chunkAgg centroids a i) (chunkAgg centroids b i) := by
  simp [chunkAgg, clusterFilter, List.filter_append, addAgg, vecSum_append]

theorem reduceTotals_chunks (centroids : List Vec3) (i : ℕ) (hi : i < centroids.length) :
    ∀ (chunks : List (List Vec3)) (a : Vec3 × ℕ),
    (chunks.map (fun ch => map_task ch centroids)).foldl
        (fun t part => addAgg t (part.getD i (Vec3.zero, 0))) a =
      addAgg a (chunkAgg centroids chunks.flatten i) := by
  intro chunks
  induction chunks with
  | nil =>
    intro a
    simp [chunkAgg, clusterFilter, vecSum, addAgg_zero_right]
  | cons ch chunks ih =>
    intro a
    rw [List.map_cons, List.foldl_cons, ih, map_task_getD ch centroids i hi,
      List.flatten_cons, chunkAgg_append, ← addAgg_assoc]
    rfl

/-- The totals aggregated by the Reduce phase depend only on the concatenation
of the chunks: with `w + 1` workers they equal the ideal whole-buffer
aggregate. -/
theorem reduceTotals_split (pixels centroids : List Vec3) (w : ℕ) (i : ℕ)
    (hi : i < centroids.length) :
    reduceTotals ((split pixels (w + 1)).map (fun ch => map_task ch centroids)) i =
      chunkAgg centroids pixels i := by
  rw [reduceTotals, reduceTotals_chunks centroids i hi, split_flatten,
    addAgg_zero_left]

/-- Worker-count invariance of one Map+Reduce round. -/
theorem run_indep (pixels centroids : List Vec3) (a b : ℕ) :
    run_parallel_map_reduce pixels centroids (a + 1) =
      run_parallel_map_reduce pixels centroids (b + 1) := by
  unfold run_parallel_map_reduce reduce_phase
  apply List.map_congr_left
  intro i hi
  have hilt : i < centroids.length := List.mem_range.mp hi
  simp only [reduceTotals_split pixels centroids _ i hilt]

/-! ## The Convergence Controller loop -/

theorem applyN_shift (pixels : List Vec3) (wc n : ℕ) (cur : List Vec3) :
    applyN pixels wc n (run_parallel_map_reduce pixels cur wc) =
      applyN pixels wc (n + 1) cur := rfl

theorem maxShift_fold (d : ℕ → ℚ) :
    ∀ (l : List ℕ) (m : ℚ),
    m ≤ l.foldl (fun m i => if d i > m then d i else m) m ∧
    (∀ i ∈ l, d i ≤ l.foldl (fun m i => if d i > m then d i else m) m) ∧
    (l.foldl (fun m i => if d i > m then d i else m) m = m ∨
      ∃ i ∈ l, l.foldl (fun m i => if d i > m then d i else m) m = d i) := by
  intro l
  induction l with
  | nil =>
    intro m
    exact ⟨le_refl m, by intro i hi; simp at hi, Or.inl rfl⟩
  | cons i l ih =>
    intro m
    rw [List.foldl_cons]
    have hstep : m ≤ (if d i > m then d i else m) := by
      by_cases h : d i > m
      · rw [if_pos h]; exact le_of_lt h
      · rw [if_neg h]
    have hstepd : d i ≤ (if d i > m then d i else m) := by
      by_cases h : d i > m
      · rw [if_pos h]
      · rw [if_neg h]; exact not_lt.mp h
    obtain ⟨h1, h2, h3⟩ := ih (if d i > m then d i else m)
    refine ⟨le_trans hstep h1, ?_, ?_⟩
    · intro j hj
      rcases List.mem_cons.mp hj with rfl | hj
      · exact le_trans hstepd h1
      · exact h2 j hj
    · rcases h3 with heq | ⟨j, hj, heq⟩
      · by_cases h : d i > m
        · exact Or.inr ⟨i, List.mem_cons_self i l, by rw [heq, if_pos h]⟩
        · exact Or.inl (by rw [heq, if_neg h])
      · exact Or.inr ⟨j, List.mem_cons_of_mem i hj, heq⟩

/-- Every per-cluster shift is bounded by `maxShift`. -/
theorem maxShift_le (newC oldC : List Vec3) (i : ℕ) (hi : i < oldC.length) :
    manhattan_distance (newC.getD i Vec3.zero) (oldC.getD i Vec3.zero) ≤
      maxShift newC oldC := by
  obtain ⟨-, h2, -⟩ := maxShift_fold
    (fun i => manhattan_distance (newC.getD i Vec3.zero) (oldC.getD i Vec3.zero))
    (List.range oldC.length) 0
  exact h2 i (List.mem_range.mpr hi)

/-- `maxShift` is `0` (its starting accumulator) or one of the per-cluster
shifts: together with `maxShift_le` it is exactly the maximum over all `K`
cluster indices, clamped below by `0.0`. -/
theorem maxShift_char (newC oldC : List Vec3) :
    maxShift newC oldC = 0 ∨ ∃ i, i < oldC.length ∧
      maxShift newC oldC =
        manhattan_distance (newC.getD i Vec3.zero) (oldC.getD i Vec3.zero) := by
  obtain ⟨-, -, h3⟩ := maxShift_fold
    (fun i => manhattan_distance (newC.getD i Vec3.zero) (oldC.getD i Vec3.zero))
    (List.range oldC.length) 0
  rcases h3 with h | ⟨i, hi, h⟩
  · exact Or.inl h
  · exact Or.inr ⟨i, List.mem_range.mp hi, h⟩

/-- Full behavioural specification of the `main.py` iteration loop: it runs
`n ≤ fuel` Map+Reduce rounds, persists each round's new centroid set, breaks
with `Converged` exactly when a round's `max_shift` drops below the threshold
(earlier rounds were all at or above it), and otherwise exhausts the fuel and
returns the latest centroid set. -/
theorem kmeansLoop_spec (pixels : List Vec3) (wc : ℕ) (th : ℚ) :
    ∀ (fuel iter : ℕ) (cur : List Vec3) (saved : List (List Vec3)),
    ∃ n : ℕ, n ≤ fuel ∧ ∃ conv : Bool,
      kmeansLoop pixels wc th fuel iter cur saved =
        (applyN pixels wc n cur,
         (if conv then iter + n - 1 else iter + n),
         conv,
         saved ++ (List.range n).map (fun t => applyN pixels wc (t + 1) cur)) ∧
      (∀ t, t + 1 < n →
        ¬ maxShift (applyN pixels wc (t + 1) cur) (applyN pixels wc t cur) < th) ∧
      (conv = true → 1 ≤ n ∧
        maxShift (applyN pixels wc n cur) (applyN pixels wc (n - 1) cur) < th) ∧
      (conv = false → n = fuel ∧ ∀ t, t < n →
        ¬ maxShift (applyN pixels wc (t + 1) cur) (applyN pixels wc t cur) < th) := by
  intro fuel
  induction fuel with
  | zero =>
    intro iter cur saved
    refine ⟨0, le_refl 0, false, ?_, ?_, ?_, ?_⟩
    · simp [kmeansLoop, applyN]
    · intro t ht; omega
    · intro h; exact Bool.noConfusion h
    · intro _; exact ⟨rfl, by intro t ht; omega⟩
  | succ fuel ih =>
    intro iter cur saved
    by_cases hms : maxShift (run_parallel_map_reduce pixels cur wc) cur < th
    · refine ⟨1, by omega, true, ?_, ?_, ?_, ?_⟩
      · rw [kmeansLoop]
        simp only [if_pos hms]
        rfl
      · intro t ht; omega
      · intro _
        exact ⟨le_refl 1, by simpa [applyN] using hms⟩
      · intro h; exact Bool.noConfusion h
    · obtain ⟨n', hn', conv, heq, hmid, htrue, hfalse⟩ :=
        ih (iter + 1) (run_parallel_map_reduce pixels cur wc)
          (saved ++ [run_parallel_map_reduce pixels cur wc])
      refine ⟨n' + 1, by omega, conv, ?_, ?_, ?_, ?_⟩
      · rw [kmeansLoop]
        simp only [if_neg hms]
        rw [heq]
        have hiter : (if conv then iter + 1 + n' - 1 else iter + 1 + n') =
            (if conv then iter + (n' + 1) - 1 else iter + (n' + 1)) := by
          by_cases hc : conv = true
          · rw [if_pos hc, if_pos hc]; omega
          · rw [if_neg hc, if_neg hc]; omega
        rw [hiter, applyN_shift]
        congr 1
        rw [List.append_assoc, List.singleton_append, List.range_succ_eq_map,
          List.map_cons, List.map_map]
        rfl
      · intro t ht
        cases t with
        | zero => simpa [applyN] using hms
        | succ t =>
          have := hmid t (by omega)
          rw [applyN_shift, applyN_shift] at this
          exact this
      · intro hc
        obtain ⟨hn1, hshift⟩ := htrue hc
        refine ⟨by omega, ?_⟩
        have h1 : n' - 1 + 1 = n' := by omega
        rw [applyN_shift, applyN_shift, h1] at hshift
        simpa using hshift
      · intro hc
        obtain ⟨hn1, hall⟩ := hfalse hc
        refine ⟨by omega, ?_⟩
        intro t ht
        cases t with
        | zero => simpa [applyN] using hms
        | succ t =>
          have := hall t (by omega)
          rw [applyN_shift, applyN_shift] at this
          exact this

/-! ## The Reconstructor's scan agrees with the Mapper's scan -/

/-- The two linear scans (`map_task` tracking the index, the Reconstructor
tracking the centroid value) branch identically; the tracked value is the
element of the centroid list at the tracked index. -/
theorem scans_agree (p : Vec3) :
    ∀ (cs : List Vec3) (idx : ℕ) (m : ℚ) (j : ℕ) (v : Vec3),
    ∃ m' j' v', scanNearest p cs idx (some (m, j)) = some (m', j') ∧
      scanNearestC p cs (some (m, v)) = some (m', v') ∧
      ((j' = j ∧ v' = v) ∨ ∃ k, k < cs.length ∧ j' = idx + k ∧ v' = cs.getD k Vec3.zero) := by
  intro cs
  induction cs with
  | nil =>
    intro idx m j v
    exact ⟨m, j, v, rfl, rfl, Or.inl ⟨rfl, rfl⟩⟩
  | cons c rest ih =>
    intro idx m j v
    by_cases h : l1 p c < m
    · obtain ⟨m', j', v', hs, hc, hcase⟩ := ih (idx + 1) (l1 p c) idx c
      refine ⟨m', j', v', ?_, ?_, ?_⟩
      · simpa [scanNearest, h] using hs
      · simpa [scanNearestC, h] using hc
      · rcases hcase with ⟨hj, hv⟩ | ⟨k, hk, hj, hv⟩
        · exact Or.inr ⟨0, by simp, by omega, by simpa [getD_cons_zero'] using hv⟩
        · exact Or.inr ⟨k + 1, by simpa using hk, by omega,
            by simpa [getD_cons_succ'] using hv⟩
    · obtain ⟨m', j', v', hs, hc, hcase⟩ := ih (idx + 1) m j v
      refine ⟨m', j', v', ?_, ?_, ?_⟩
      · simpa [scanNearest, h] using hs
      · simpa [scanNearestC, h] using hc
      · rcases hcase with ⟨hj, hv⟩ | ⟨k, hk, hj, hv⟩
        · exact Or.inl ⟨hj, hv⟩
        · exact Or.inr ⟨k + 1, by simpa using hk, by omega,
            by simpa [getD_cons_succ'] using hv⟩

/-- On a non-empty centroid list, the Reconstructor's scan returns the value
of the centroid whose index the Mapper's scan would return. -/
theorem scanC_value (centroids : List Vec3) (p : Vec3) (h : centroids ≠ []) :
    ∃ j m', nearestIdx centroids p = some j ∧
      scanNearestC p centroids none = some (m', centroids.getD j Vec3.zero) := by
  obtain ⟨c, rest, rfl⟩ : ∃ c rest, centroids = c :: rest := by
    cases centroids with
    | nil => exact absurd rfl h
    | cons c rest => exact ⟨c, rest, rfl⟩
  obtain ⟨m', j', v', hs, hc, hcase⟩ := scans_agree p rest 1 (l1 p c) 0 c
  refine ⟨j', m', ?_, ?_⟩
  · simp [nearestIdx, scanNearest, hs]
  · have hC : scanNearestC p (c :: rest) none = some (m', v') := by
      simpa [scanNearestC] using hc
    rw [hC]
    rcases hcase with ⟨hj, hv⟩ | ⟨k, hk, hj, hv⟩
    · rw [hj, hv, getD_cons_zero']
    · rw [hj, hv, show 1 + k = k + 1 by omega, getD_cons_succ']

/-! ## Counting: every pixel of a chunk is assigned exactly once -/

theorem sum_map_ite_zero (j : ℕ) :
    ∀ l : List ℕ, j ∉ l → (l.map (fun i => if j = i then 1 else 0)).sum = 0 := by
  intro l
  induction l with
  | nil => intro _; rfl
  | cons a l ih =>
    intro hj
    rw [List.map_cons, List.sum_cons, if_neg (by intro hja; exact hj (hja ▸ List.mem_cons_self a l)),
      ih (fun hmem => hj (List.mem_cons_of_mem a hmem))]

theorem sum_map_ite_one (j : ℕ) :
    ∀ l : List ℕ, l.Nodup → j ∈ l →
    (l.map (fun i => if j = i then 1 else 0)).sum = 1 := by
  intro l
  induction l with
  | nil => intro _ hj; simp at hj
  | cons a l ih =>
    intro hnd hj
    rcases List.mem_cons.mp hj with rfl | hj
    · rw [List.map_cons, List.sum_cons, if_pos rfl,
        sum_map_ite_zero j l (List.Nodup.not_mem hnd)]
    · have hja : j ≠ a := by
        intro hja
        exact (List.Nodup.not_mem hnd) (hja ▸ hj)
      rw [List.map_cons, List.sum_cons, if_neg hja, ih (List.Nodup.of_cons hnd) hj]

theorem sum_map_add_nat (f g : ℕ → ℕ) :
    ∀ l : List ℕ, (l.map (fun i => f i + g i)).sum = (l.map f).sum + (l.map g).sum := by
  intro l
  induction l with
  | nil => rfl
  | cons a l ih =>
    simp only [List.map_cons, List.sum_cons, ih]
    omega

/-- The per-cluster counts of a chunk partition its length: every pixel is
assigned to exactly one cluster. -/
theorem count_partition (centroids : List Vec3) (h : centroids ≠ []) :
    ∀ ch : List Vec3,
    ((List.range centroids.length).map
      (fun i => (clusterFilter centroids ch i).length)).sum = ch.length := by
  intro ch
  induction ch with
  | nil =>
    simp [clusterFilter]
  | cons p rest ihc =>
    obtain ⟨j, hj, hjlt, -, -⟩ := nearestIdx_char centroids p h
    have hlen : ∀ i, (clusterFilter centroids (p :: rest) i).length =
        (if j = i then 1 else 0) + (clusterFilter centroids rest i).length := by
      intro i
      by_cases hji : j = i
      · subst hji
        simp [clusterFilter, List.filter_cons, hj]
        omega
      · simp [clusterFilter, List.filter_cons, hj, hji]
    rw [List.map_congr_left (fun i _ => hlen i), sum_map_add_nat,
      sum_map_ite_one j (List.range centroids.length) (List.nodup_range _)
        (List.mem_range.mpr hjlt), ihc]
    simp only [List.length_cons]
    omega

/-! ## The Reduce totals as explicit sums over the mapper results -/

theorem foldl_addAgg_sums (i : ℕ) :
    ∀ (parts : List (List (Vec3 × ℕ))) (a : Vec3 × ℕ),
    parts.foldl (fun t part => addAgg t (part.getD i (Vec3.zero, 0))) a =
      addAgg a (vecSum (parts.map (fun part => (part.getD i (Vec3.zero, 0)).1)),
        (parts.map (fun part => (part.getD i (Vec3.zero, 0)).2)).sum) := by
  intro parts
  induction parts with
  | nil =>
    intro a
    simp [vecSum, addAgg_zero_right]
  | cons part parts ih =>
    intro a
    rw [List.foldl_cons, ih, addAgg_assoc]
    rfl

/-- The totals aggregated for cluster `i` are the component-wise sum of the
chunks' partial sums and the arithmetic sum of their counts. -/
theorem reduceTotals_sums (parts : List (List (Vec3 × ℕ))) (i : ℕ) :
    reduceTotals parts i =
      (vecSum (parts.map (fun part => (part.getD i (Vec3.zero, 0)).1)),
        (parts.map (fun part => (part.getD i (Vec3.zero, 0)).2)).sum) := by
  rw [reduceTotals, foldl_addAgg_sums, addAgg_zero_left]

theorem splitOnChar_ne_nil (sep : Char) (l : List Char) : splitOnChar sep l ≠ [] := by
  cases l with
  | nil => simp [splitOnChar]
  | cons c rest =>
    rw [splitOnChar]
    rcases h : splitOnChar sep rest with - | ⟨g, gs⟩
    · simp
    · by_cases hc : c == sep
      · simp [hc]
      · simp [hc]

theorem splitOnChar_no_sep (sep : Char) :
    ∀ l : List Char, (∀ c ∈ l, c ≠ sep) → splitOnChar sep l = [l] := by
  intro l
  induction l with
  | nil => intro _; rfl
  | cons c rest ih =>
    intro h
    have hrest := ih (fun c hc => h c (List.mem_cons_of_mem _ hc))
    have hc : (c == sep) = false := by
      simp only [beq_eq_false_iff_ne]
      exact h c (List.mem_cons_self c rest)
    rw [splitOnChar, hrest]
    simp [hc]

theorem splitOnChar_append (sep : Char) :
    ∀ l rest : List Char, (∀ c ∈ l, c ≠ sep) →
    splitOnChar sep (l ++ sep :: rest) = l :: splitOnChar sep rest := by
  intro l
  induction l with
  | nil =>
    intro rest _
    rcases h : splitOnChar sep rest with - | ⟨g, gs⟩
    · exact absurd h (splitOnChar_ne_nil sep rest)
    · simp [splitOnChar, h]
  | cons c l ih =>
    intro rest h
    have hc : (c == sep) = false := by
      simp only [beq_eq_false_iff_ne]
      exact h c (List.mem_cons_self c l)
    rw [List.cons_append, splitOnChar, ih rest (fun c hc => h c (List.mem_cons_of_mem _ hc))]
    simp [hc]

theorem splitOnChar_lines (sep : Char) :
    ∀ ls : List (List Char), (∀ l ∈ ls, ∀ c ∈ l, c ≠ sep) →
    splitOnChar sep ((ls.map (fun l => l ++ [sep])).flatten) = ls ++ [[]] := by
  intro ls
  induction ls with
  | nil => intro _; rfl
  | cons l ls ih =>
    intro h
    rw [List.map_cons, List.flatten_cons, List.append_assoc, List.singleton_append,
      splitOnChar_append sep l _ (h l (List.mem_cons_self l ls)),
      ih (fun l' hl' => h l' (List.mem_cons_of_mem _ hl'))]
    rfl

theorem dropWhile_false {p : Char → Bool} :
    ∀ l : List Char, (∀ c ∈ l, p c = false) → l.dropWhile p = l := by
  intro l
  induction l with
  | nil => intro _; rfl
  | cons c rest _ =>
    intro h
    rw [List.dropWhile_cons, h c (List.mem_cons_self c rest)]
    simp

theorem strip_no_space (l : List Char) (h : ∀ c ∈ l, isSpaceChar c = false) :
    strip l = l := by
  rw [strip, dropWhile_false l h, dropWhile_false l.reverse
    (fun c hc => h c (List.mem_reverse.mp hc)), List.reverse_reverse]

theorem joinWith_cons₂ (sep : Char) (g g₂ : List Char) (gs₂ : List (List Char)) :
    joinWith sep (g :: g₂ :: gs₂) = g ++ sep :: joinWith sep (g₂ :: gs₂) := rfl

theorem mem_joinWith (sep : Char) :
    ∀ (parts : List (List Char)) (c : Char), c ∈ joinWith sep parts →
    (∃ part ∈ parts, c ∈ part) ∨ c = sep := by
  intro parts
  induction parts with
  | nil => intro c hc; simp [joinWith] at hc
  | cons g gs ih =>
    intro c hc
    cases gs with
    | nil =>
      rw [joinWith] at hc
      exact Or.inl ⟨g, List.mem_cons_self g [], hc⟩
    | cons g₂ gs₂ =>
      rw [joinWith_cons₂] at hc
      rcases List.mem_append.mp hc with hg | hrest
      · exact Or.inl ⟨g, List.mem_cons_self _ _, hg⟩
      · rcases List.mem_cons.mp hrest with rfl | hjoin
        · exact Or.inr rfl
        · rcases ih c hjoin with ⟨part, hpart, hcpart⟩ | hsep
          · exact Or.inl ⟨part, List.mem_cons_of_mem _ hpart, hcpart⟩
          · exact Or.inr hsep

theorem splitOn_joinWith (sep : Char) :
    ∀ parts : List (List Char), parts ≠ [] →
    (∀ part ∈ parts, ∀ c ∈ part, c ≠ sep) →
    splitOnChar sep (joinWith sep parts) = parts := by
  intro parts
  induction parts with
  | nil => intro h; exact absurd rfl h
  | cons g gs ih =>
    intro _ h
    cases gs with
    | nil =>
      rw [joinWith]
      exact splitOnChar_no_sep sep g (h g (List.mem_cons_self g []))
    | cons g₂ gs₂ =>
      rw [joinWith_cons₂, splitOnChar_append sep g _ (h g (List.mem_cons_self _ _)),
        ih (by simp) (fun part hpart => h part (List.mem_cons_of_mem _ hpart))]

theorem joinWith_ne_nil (sep : Char) (g : List Char) (gs : List (List Char))
    (hg : g ≠ []) : joinWith sep (g :: gs) ≠ [] := by
  cases gs with
  | nil => rw [joinWith]; exact hg
  | cons g₂ gs₂ =>
    rw [joinWith_cons₂]
    cases g with
    | nil => simp
    | cons c rest => simp

theorem filterMap_all_some {α β : Type} (f : α → Option β) (g : α → β) :
    ∀ l : List α, (∀ x ∈ l, f x = some (g x)) → l.filterMap f = l.map g := by
  intro l
  induction l with
  | nil => intro _; rfl
  | cons a l ih =>
    intro h
    rw [List.filterMap_cons, h a (List.mem_cons_self a l), List.map_cons,
      ih (fun x hx => h x (List.mem_cons_of_mem a hx))]

/-- Round trip of the centroid store at the level of parsed fields: loading a
saved file recovers exactly the parse of the format of every component, with
rows and fields in their original order. -/
theorem load_save (fmt : ℚ → List Char) (parse : List Char → ℚ)
    (rows : List (List ℚ)) (hne : ∀ row ∈ rows, row ≠ [])
    (hok : ∀ row ∈ rows, ∀ q ∈ row, fmtOk (fmt q)) :
    load_centroids parse (save_centroids fmt rows) =
      rows.map (fun row => row.map (fun q => parse (fmt q))) := by
  have hsave : save_centroids fmt rows =
      ((rows.map (fun row => joinWith ',' (row.map fmt))).map
        (fun l => l ++ ['\n'])).flatten := by
    rw [save_centroids, List.map_map]
    rfl
  have hnosep : ∀ row ∈ rows, ∀ c ∈ joinWith ',' (row.map fmt), c ≠ '\n' := by
    intro row hrow c hc
    rcases mem_joinWith ',' (row.map fmt) c hc with ⟨part, hpart, hcpart⟩ | hcomma
    · obtain ⟨q, hq, rfl⟩ := List.mem_map.mp hpart
      intro hcn
      have := ((hok row hrow q hq).2 c hcpart).1
      rw [hcn] at this
      exact absurd this (by decide)
    · rw [hcomma]; decide
  have hnospace : ∀ row ∈ rows, ∀ c ∈ joinWith ',' (row.map fmt),
      isSpaceChar c = false := by
    intro row hrow c hc
    rcases mem_joinWith ',' (row.map fmt) c hc with ⟨part, hpart, hcpart⟩ | hcomma
    · obtain ⟨q, hq, rfl⟩ := List.mem_map.mp hpart
      exact ((hok row hrow q hq).2 c hcpart).1
    · rw [hcomma]; decide
  have hlne : ∀ row ∈ rows, joinWith ',' (row.map fmt) ≠ [] := by
    intro row hrow
    rcases hr : row with - | ⟨q, qs⟩
    · exact absurd hr (hne row hrow)
    · rw [List.map_cons]
      exact joinWith_ne_nil ',' (fmt q) (qs.map fmt)
        (hok row hrow q (hr ▸ List.mem_cons_self q qs)).1
  have hsplitline : ∀ row ∈ rows,
      splitOnChar ',' (joinWith ',' (row.map fmt)) = row.map fmt := by
    intro row hrow
    apply splitOn_joinWith
    · rcases hr : row with - | ⟨q, qs⟩
      · exact absurd hr (hne row hrow)
      · simp
    · intro part hpart c hcpart
      obtain ⟨q, hq, rfl⟩ := List.mem_map.mp hpart
      exact ((hok row hrow q hq).2 c hcpart).2
  rw [load_centroids, hsave,
    splitOnChar_lines '\n' (rows.map (fun row => joinWith ',' (row.map fmt)))
      (by
        intro l hl
        obtain ⟨row, hrow, rfl⟩ := List.mem_map.mp hl
        exact hnosep row hrow),
    List.filterMap_append]
  have hlast : ([([] : List Char)].filterMap (fun line =>
      let s := strip line
      if s.isEmpty then none
      else some ((splitOnChar ',' s).map parse))) = [] := by
    simp [strip]
  rw [hlast, List.append_nil]
  rw [filterMap_all_some _ (fun line => (splitOnChar ',' line).map parse) _
    (by
      intro line hline
      obtain ⟨row, hrow, rfl⟩ := List.mem_map.mp hline
      have hstrip := strip_no_space _ (hnospace row hrow)
      have hempty : (joinWith ',' (row.map fmt)).isEmpty = false := by
        rcases hj : joinWith ',' (row.map fmt) with - | ⟨c, cs⟩
        · exact absurd hj (hlne row hrow)
        · rfl
      simp only [hstrip, hempty]
      rfl)]
  rw [List.map_map]
  apply List.map_congr_left
  intro row hrow
  simp only [Function.comp_apply, hsplitline row hrow, List.map_map]
  rfl

/-! ## Claim statements -/

theorem getD_map_lt {α β : Type} (f : α → β) (l : List α) (i : ℕ) (h : i < l.length)
    (d : β) (d' : α) : (l.map f).getD i d = f (l.getD i d') := by
  rw [List.getD_eq_getElem?_getD, List.getD_eq_getElem?_getD, List.getElem?_map,
    List.getElem?_eq_getElem h]
  rfl

theorem getD_mem_of_lt {α : Type} (l : List α) (i : ℕ) (d : α) (h : i < l.length) :
    l.getD i d ∈ l := by
  rw [List.getD_eq_getElem?_getD, List.getElem?_eq_getElem h]
  exact List.getElem_mem h

/-- C1: for every pixel and non-empty CentroidSet the Mapper assigns the pixel
to the first index attaining the minimum L1 distance in the linear scan (ties
to the lowest index), accumulates it into that cluster's running sum and
count, and its output has an entry for every cluster index in `[0, K)`. -/
theorem claim_C1 (chunk centroids : List Vec3) (h : centroids ≠ []) :
    C1_prop chunk centroids := by
  refine ⟨map_task_length chunk centroids, ?_, ?_⟩
  · intro p
    exact nearestIdx_char centroids p h
  · intro i hi
    exact map_task_getD chunk centroids i hi

theorem claim_C1_witness :
    ([(⟨0, 0, 0⟩ : Vec3), ⟨10, 10, 10⟩] ≠ ([] : List Vec3)) ∧
    C1_prop [⟨1, 2, 3⟩] [⟨0, 0, 0⟩, ⟨10, 10, 10⟩] :=
  ⟨by simp, claim_C1 [⟨1, 2, 3⟩] [⟨0, 0, 0⟩, ⟨10, 10, 10⟩] (by simp)⟩

/-- C2: the Reducer sums per-chunk partial sums and counts per cluster index;
positive total count yields the component-wise mean, zero total count keeps
the previous centroid unchanged, and the output preserves index order (entry
`i` of the output corresponds to entry `i` of the previous CentroidSet). -/
theorem claim_C2 (parts : List (List (Vec3 × ℕ))) (prev : List Vec3) :
    C2_prop parts prev := by
  constructor
  · simp [reduce_phase]
  · intro i hi
    have hget : (reduce_phase parts prev).getD i Vec3.zero =
        (if 0 < (reduceTotals parts i).2
          then (reduceTotals parts i).1.sdiv (reduceTotals parts i).2
          else prev.getD i Vec3.zero) := by
      rw [reduce_phase, getD_range_map _ _ _ _ hi]
    rw [reduceTotals_sums] at hget
    constructor
    · intro hpos
      rw [hget, if_pos hpos]
    · intro hzero
      rw [hget, if_neg (by rw [hzero]; exact lt_irrefl 0)]

theorem claim_C2_witness :
    C2_prop [[(⟨1, 1, 1⟩, 1), (⟨0, 0, 0⟩, 0)]] [⟨5, 5, 5⟩, ⟨6, 6, 6⟩] :=
  claim_C2 [[(⟨1, 1, 1⟩, 1), (⟨0, 0, 0⟩, 0)]] [⟨5, 5, 5⟩, ⟨6, 6, 6⟩]

/-- C3: the Convergence Controller runs at most `maxIterations` Map+Reduce
rounds; each round computes `max_shift` as the maximum per-index L1 shift
(bounded by and attained at some index, or `0`), replaces the old CentroidSet
with the new one and persists it; it exits in `Converged` exactly when a
round's `max_shift` drops below the threshold, and exhausting the iterations
is not an error — the latest CentroidSet is returned. -/
theorem claim_C3 (pixels : List Vec3) (wc : ℕ) (threshold : ℚ) (maxIter : ℕ)
    (init : List Vec3) (_hwc : 1 ≤ wc) :
    C3_prop pixels wc threshold maxIter init := by
  constructor
  · intro newC oldC
    exact ⟨fun i hi => maxShift_le newC oldC i hi, maxShift_char newC oldC⟩
  · obtain ⟨n, hn, conv, heq, h1, h2, h3⟩ :=
      kmeansLoop_spec pixels wc threshold maxIter 0 init []
    refine ⟨n, hn, conv, ?_, h1, h2, h3⟩
    rw [kmeansMain, heq]
    simp

theorem claim_C3_witness :
    1 ≤ 1 ∧ C3_prop [⟨0, 0, 0⟩] 1 1 2 [⟨0, 0, 0⟩] :=
  ⟨le_refl 1, claim_C3 [⟨0, 0, 0⟩] 1 1 2 [⟨0, 0, 0⟩] (le_refl 1)⟩

/-- C4: for `1 ≤ workerCount ≤ N` the Partitioner produces `workerCount`
contiguous chunks whose in-order concatenation is the original buffer; every
chunk except the last has size `N / workerCount` and the last absorbs the
remainder `N - (workerCount-1) * chunkSize`. -/
theorem claim_C4 (pixels : List Vec3) (wc : ℕ) (h1 : 1 ≤ wc)
    (h2 : wc ≤ pixels.length) : C4_prop pixels wc := by
  obtain ⟨w, rfl⟩ : ∃ w, wc = w + 1 := ⟨wc - 1, by omega⟩
  refine ⟨split_length pixels (w + 1), split_flatten pixels w, ?_, ?_⟩
  · intro i hi
    rw [split_getD_early pixels (w + 1) i hi, List.length_take, List.length_drop]
    have ha : pixels.length / (w + 1) * (w + 1) ≤ pixels.length :=
      Nat.div_mul_le_self _ _
    have hb : (i + 1) * (pixels.length / (w + 1)) ≤ (w + 1) * (pixels.length / (w + 1)) :=
      Nat.mul_le_mul_right _ (by omega)
    have hc : (i + 1) * (pixels.length / (w + 1)) =
        i * (pixels.length / (w + 1)) + pixels.length / (w + 1) := by ring
    have hd : (w + 1) * (pixels.length / (w + 1)) ≤ pixels.length := by
      rw [Nat.mul_comm]; exact ha
    exact Nat.min_eq_left (by omega)
  · rw [split_getD_last pixels (w + 1) (by omega), List.length_drop]

theorem claim_C4_witness :
    (1 ≤ 2 ∧ 2 ≤ 3) ∧ C4_prop [⟨1, 1, 1⟩, ⟨2, 2, 2⟩, ⟨3, 3, 3⟩] 2 :=
  ⟨⟨by decide, by decide⟩,
    claim_C4 [⟨1, 1, 1⟩, ⟨2, 2, 2⟩, ⟨3, 3, 3⟩] 2 (by decide) (by simp)⟩

/-- Helper for the C5 counterexample: `round (9/10) = 1`. -/
theorem round_nine_tenths : round ((9 : ℚ) / 10) = 1 := by
  rw [round_eq, show (9 : ℚ) / 10 + 1 / 2 = 7 / 5 by norm_num, Int.floor_eq_iff]
  norm_num

/-- C5 counterexample: the claim says the Reconstructor stores the *rounded*
value of the nearest centroid; the code stores the value truncated by the
`uint8` cast.  At pixel `(0,0,0)` and single centroid `(0.9, 0, 0)` the code
produces `(0,0,0)` while the rounded value is `(1,0,0)`. -/
theorem claim_C5_counterexample :
    reconstruct_image_from_array [⟨0, 0, 0⟩] [⟨9/10, 0, 0⟩] ≠
      reconstructRounded [⟨0, 0, 0⟩] [⟨9/10, 0, 0⟩] := by
  norm_num [reconstruct_image_from_array, reconstructRounded, scanNearestC,
    l1, truncVec, toU8, truncQ, Vec3.zero, round_nine_tenths]
  decide

/-- C5 (amended): for a non-empty final CentroidSet the Reconstructor replaces
every pixel with the value of its nearest centroid — chosen by the same
linear-scan L1 rule as the Mapper — *truncated* by the `uint8` store (not
rounded), and the output buffer has the same pixel count as the input. -/
theorem claim_C5 (pixels centroids : List Vec3) (h : centroids ≠ []) :
    C5_prop pixels centroids := by
  constructor
  · simp [reconstruct_image_from_array]
  · intro i hi
    obtain ⟨j, m', hj, hscan⟩ :=
      scanC_value centroids (pixels.getD i Vec3.zero) h
    refine ⟨j, hj, ?_⟩
    rw [reconstruct_image_from_array,
      getD_map_lt _ pixels i hi (0, 0, 0) Vec3.zero, hscan]

theorem claim_C5_witness :
    ([(⟨1, 1, 1⟩ : Vec3)] ≠ ([] : List Vec3)) ∧ C5_prop [⟨0, 0, 0⟩] [⟨1, 1, 1⟩] :=
  ⟨by simp, claim_C5 [⟨0, 0, 0⟩] [⟨1, 1, 1⟩] (by simp)⟩

/-- C6: for a fixed buffer and CentroidSet, one Map+Reduce round yields
identical new centroids for every worker count — partitioning has no effect
on the numerical result. -/
theorem claim_C6 (pixels centroids : List Vec3) (wc₁ wc₂ : ℕ)
    (h₁ : 1 ≤ wc₁) (h₂ : 1 ≤ wc₂) :
    run_parallel_map_reduce pixels centroids wc₁ =
      run_parallel_map_reduce pixels centroids wc₂ := by
  obtain ⟨a, rfl⟩ : ∃ a, wc₁ = a + 1 := ⟨wc₁ - 1, by omega⟩
  obtain ⟨b, rfl⟩ : ∃ b, wc₂ = b + 1 := ⟨wc₂ - 1, by omega⟩
  exact run_indep pixels centroids a b

theorem claim_C6_witness :
    (1 ≤ 1 ∧ 1 ≤ 2) ∧
    run_parallel_map_reduce [⟨0, 0, 0⟩, ⟨2, 2, 2⟩] [⟨0, 0, 0⟩] 1 =
      run_parallel_map_reduce [⟨0, 0, 0⟩, ⟨2, 2, 2⟩] [⟨0, 0, 0⟩] 2 :=
  ⟨⟨by decide, by decide⟩,
    claim_C6 [⟨0, 0, 0⟩, ⟨2, 2, 2⟩] [⟨0, 0, 0⟩] 1 2 (by decide) (by decide)⟩

theorem scen_round1 :
    run_parallel_map_reduce scenarioPixels scenarioInit 1 = scenarioTarget := by
  norm_num [run_parallel_map_reduce, split, map_task, mapStep, reduce_phase,
    reduceTotals, nearestIdx, scanNearest, bump, l1, Vec3.add, Vec3.zero, Vec3.sdiv,
    addAgg, scenarioPixels, scenarioInit, scenarioTarget, List.range_succ]

theorem scen_fixpoint :
    run_parallel_map_reduce scenarioPixels scenarioTarget 1 = scenarioTarget := by
  norm_num [run_parallel_map_reduce, split, map_task, mapStep, reduce_phase,
    reduceTotals, nearestIdx, scanNearest, bump, l1, Vec3.add, Vec3.zero, Vec3.sdiv,
    addAgg, scenarioPixels, scenarioTarget, List.range_succ, abs_of_nonneg,
    abs_of_nonpos]

theorem scen_shift1 : maxShift scenarioTarget scenarioInit = 1/2 := by
  norm_num [maxShift, manhattan_distance, Vec3.zero, scenarioTarget, scenarioInit,
    List.range_succ, abs_of_nonneg, abs_of_nonpos]

theorem scen_shift0 : maxShift scenarioTarget scenarioTarget = 0 := by
  norm_num [maxShift, manhattan_distance, Vec3.zero, scenarioTarget, List.range_succ]

theorem scen_main : kmeansMain scenarioPixels 1 (1/2) 10 scenarioInit =
    (scenarioTarget, 1, true, [scenarioTarget, scenarioTarget]) := by
  rw [kmeansMain, show (10 : ℕ) = 9 + 1 from rfl, kmeansLoop]
  simp only [scen_round1, scen_shift1]
  rw [if_neg (by norm_num)]
  rw [show (9 : ℕ) = 8 + 1 from rfl, kmeansLoop]
  simp only [scen_fixpoint, scen_shift0]
  rw [if_pos (by norm_num)]
  simp

theorem kmeansLoop_indep (pixels : List Vec3) (th : ℚ) (a b : ℕ) :
    ∀ (fuel iter : ℕ) (cur : List Vec3) (saved : List (List Vec3)),
    kmeansLoop pixels (a + 1) th fuel iter cur saved =
      kmeansLoop pixels (b + 1) th fuel iter cur saved := by
  intro fuel
  induction fuel with
  | zero => intro iter cur saved; rfl
  | succ fuel ih =>
    intro iter cur saved
    simp only [kmeansLoop]
    rw [run_indep pixels cur a b]
    by_cases h : maxShift (run_parallel_map_reduce pixels cur (b + 1)) cur < th
    · rw [if_pos h, if_pos h]
    · rw [if_neg h, if_neg h, ih]

/-- C7: on the 4-pixel scenario buffer with K=2, initial centroids
`[(0,0,0),(10,10,10)]`, threshold `0.5` and `maxIterations = 10`, one
Map+Reduce round produces `[(0,0,0.5),(10,10,10.5)]`, every later round
leaves the centroids fixed with `max_shift = 0`, and the run ends
`Converged` with the loop's iteration counter equal to `1` (having persisted
the centroid set twice). -/
theorem claim_C7 (wc : ℕ) (hwc : 1 ≤ wc) : C7_prop wc := by
  obtain ⟨w, rfl⟩ : ∃ w, wc = w + 1 := ⟨wc - 1, by omega⟩
  have hr1 : run_parallel_map_reduce scenarioPixels scenarioInit (w + 1) =
      scenarioTarget := by
    rw [run_indep scenarioPixels scenarioInit w 0]
    exact scen_round1
  have hr2 : run_parallel_map_reduce scenarioPixels scenarioTarget (w + 1) =
      scenarioTarget := by
    rw [run_indep scenarioPixels scenarioTarget w 0]
    exact scen_fixpoint
  have hfix : ∀ n, applyN scenarioPixels (w + 1) n scenarioTarget = scenarioTarget := by
    intro n
    induction n with
    | zero => rfl
    | succ n ih =>
      show applyN scenarioPixels (w + 1) n
        (run_parallel_map_reduce scenarioPixels scenarioTarget (w + 1)) = scenarioTarget
      rw [hr2]
      exact ih
  refine ⟨hr1, hr2, scen_shift0, ?_, ?_⟩
  · intro n hn
    obtain ⟨m, rfl⟩ : ∃ m, n = m + 1 := ⟨n - 1, by omega⟩
    show applyN scenarioPixels (w + 1) m
      (run_parallel_map_reduce scenarioPixels scenarioInit (w + 1)) = scenarioTarget
    rw [hr1]
    exact hfix m
  · rw [kmeansMain, kmeansLoop_indep scenarioPixels (1/2) w 0]
    exact scen_main

theorem claim_C7_witness : 1 ≤ 1 ∧ C7_prop 1 := ⟨le_refl 1, claim_C7 1 (le_refl 1)⟩

/-- C8: with the random draw abstracted by its contract (`np.random.choice`
with `replace=False` yields `k` distinct indices below `N` and raises when
`k > N`), centroid initialization returns exactly `k` centroids, each the
pixel at one of `k` pairwise-distinct buffer indices, and fails for `k > N`. -/
theorem claim_C8 (pixels : List Vec3) (k : ℕ) (draw : List ℕ) :
    C8_prop pixels k draw := by
  constructor
  · intro h
    rw [initCentroids, if_pos h]
  · intro hk hlen hnd hbound
    refine ⟨draw.map (fun i => pixels.getD i Vec3.zero), ?_, ?_, draw, hnd, hlen, ?_⟩
    · rw [initCentroids, if_neg (by omega)]
    · rw [List.length_map, hlen]
    · intro j hj
      have hj' : j < draw.length := by omega
      have hmem : draw.getD j 0 ∈ draw := getD_mem_of_lt draw j 0 hj'
      exact ⟨hbound _ hmem, getD_map_lt _ draw j hj' Vec3.zero 0⟩

theorem claim_C8_witness : C8_prop [⟨1, 2, 3⟩, ⟨4, 5, 6⟩] 2 [1, 0] :=
  claim_C8 [⟨1, 2, 3⟩, ⟨4, 5, 6⟩] 2 [1, 0]

/-- C9: loading the file produced by saving a CentroidSet returns the same
number of centroids in the same order, component-wise within `1e-6` —
assuming only the documented contract of Python's `str`/`float` conversion
(abstracted as `fmt`/`parse`) at the serialized components. -/
theorem claim_C9 (fmt : ℚ → List Char) (parse : List Char → ℚ) (X : List Vec3)
    (hfmt : ∀ v ∈ X, ∀ q ∈ vecRow v,
      fmtOk (fmt q) ∧ |parse (fmt q) - q| ≤ 1/1000000) :
    C9_prop fmt parse X := by
  have hload := load_save fmt parse (X.map vecRow)
    (by
      intro row hrow
      obtain ⟨v, hv, rfl⟩ := List.mem_map.mp hrow
      simp [vecRow])
    (by
      intro row hrow q hq
      obtain ⟨v, hv, rfl⟩ := List.mem_map.mp hrow
      exact (hfmt v hv q hq).1)
  refine ⟨_, hload, by simp, ?_⟩
  intro i hi
  have hvmem : X.getD i Vec3.zero ∈ X := getD_mem_of_lt X i Vec3.zero hi
  have hrow : ((X.map vecRow).map
      (fun row => row.map (fun q => parse (fmt q)))).getD i [] =
      (vecRow (X.getD i Vec3.zero)).map (fun q => parse (fmt q)) := by
    rw [List.map_map]
    exact getD_map_lt _ X i hi [] Vec3.zero
  refine ⟨parse (fmt (X.getD i Vec3.zero).x), parse (fmt (X.getD i Vec3.zero).y),
    parse (fmt (X.getD i Vec3.zero).z), ?_, ?_, ?_, ?_⟩
  · rw [hrow]; rfl
  · exact (hfmt _ hvmem _ (by simp [vecRow])).2
  · exact (hfmt _ hvmem _ (by simp [vecRow])).2
  · exact (hfmt _ hvmem _ (by simp [vecRow])).2

theorem claim_C9_witness :
    (∀ v ∈ [(⟨1, 2, 3⟩ : Vec3)], ∀ q ∈ vecRow v,
      fmtOk (witFmt q) ∧ |witParse (witFmt q) - q| ≤ 1/1000000) ∧
    C9_prop witFmt witParse [⟨1, 2, 3⟩] := by
  have hyp : ∀ v ∈ [(⟨1, 2, 3⟩ : Vec3)], ∀ q ∈ vecRow v,
      fmtOk (witFmt q) ∧ |witParse (witFmt q) - q| ≤ 1/1000000 := by
    intro v hv q hq
    simp only [List.mem_singleton] at hv
    subst hv
    simp only [vecRow, List.mem_cons, List.mem_singleton] at hq
    rcases hq with rfl | rfl | rfl | h
    · have hf : witFmt 1 = ['1'] := by rw [witFmt, if_pos rfl]
      refine ⟨⟨by rw [hf]; simp, ?_⟩, ?_⟩
      · intro c hc
        rw [hf] at hc
        simp only [List.mem_singleton] at hc
        subst hc
        exact ⟨by decide, by decide⟩
      · rw [hf, witParse, if_pos rfl]
        norm_num
    · have hf : witFmt 2 = ['2'] := by
        rw [witFmt, if_neg (by norm_num), if_pos rfl]
      refine ⟨⟨by rw [hf]; simp, ?_⟩, ?_⟩
      · intro c hc
        rw [hf] at hc
        simp only [List.mem_singleton] at hc
        subst hc
        exact ⟨by decide, by decide⟩
      · rw [hf, witParse, if_neg (by decide), if_pos rfl]
        norm_num
    · have hf : witFmt 3 = ['3'] := by
        rw [witFmt, if_neg (by norm_num), if_neg (by norm_num)]
      refine ⟨⟨by rw [hf]; simp, ?_⟩, ?_⟩
      · intro c hc
        rw [hf] at hc
        simp only [List.mem_singleton] at hc
        subst hc
        exact ⟨by decide, by decide⟩
      · rw [hf, witParse, if_neg (by decide), if_neg (by decide)]
        norm_num
    · simp at h
  exact ⟨hyp, claim_C9 witFmt witParse [⟨1, 2, 3⟩] hyp⟩

/-- C10: for a non-empty CentroidSet the Mapper's per-cluster counts sum to
the chunk length, each cluster's accumulated sum is the component-wise sum of
its assigned pixels, and the unassigned branch (`nearest_idx == -1`) is
unreachable. -/
theorem claim_C10 (chunk centroids : List Vec3) (h : centroids ≠ []) :
    C10_prop chunk centroids := by
  refine ⟨?_, ?_, ?_⟩
  · rw [List.map_congr_left (fun i hi => by
      rw [map_task_getD chunk centroids i (List.mem_range.mp hi)])]
    exact count_partition centroids h chunk
  · intro i hi
    rw [map_task_getD chunk centroids i hi]
  · intro p hnone
    exact h ((nearestIdx_none_iff centroids p).mp hnone)

theorem claim_C10_witness :
    ([(⟨0, 0, 0⟩ : Vec3)] ≠ ([] : List Vec3)) ∧ C10_prop [⟨5, 5, 5⟩] [⟨0, 0, 0⟩] :=
  ⟨by simp, claim_C10 [⟨5, 5, 5⟩] [⟨0, 0, 0⟩] (by simp)⟩
